import Mathlib

/-!
Shallow embedding of the `recursive_array` Rust crate (src/lib.rs).

The crate defines a trait `RecursiveArray<T>` whose implementors guarantee that
their memory representation is exactly `LENGTH` contiguous values of `T`, and a
closed family of five conforming variant types:

  * `EmptyRecursiveArray`                      (`LENGTH = 0`)
  * `RecursiveArraySingleItem<T>`              (`LENGTH = 1`, `repr(transparent)` over `T`)
  * `RecursiveArrayConcatenation<T, A, B>`     (`LENGTH = A::LENGTH + B::LENGTH`, `repr(C)` with field `a` then `b`)
  * `RecursiveArrayArrayWrapper<N, T>`         (`LENGTH = N`, `repr(transparent)` over `[T; N]`)
  * `RecursiveArrayMultiplier<N, T, A>`        (`LENGTH = A::LENGTH * N`, `repr(transparent)` over `[A; N]`)

We embed the Rust type-level family as the inductive `RAShape` (one shape per
generic instantiation of a variant type) and its values as the indexed family
`RecArray T s`.  The physical contiguous element sequence guaranteed by the
`repr` attributes is modelled by `RecArray.memory : List T`: an empty array
occupies no elements, a single item occupies one, a `repr(C)` concatenation lays
out `a`'s elements followed by `b`'s, and the transparent array wrappers lay out
their native array in order.
-/

/-- a shape describes one concrete instantiation of the Rust recursive-array
type family: which of the five variant structs it is, with its type-level
(const-generic) parameters. -/
inductive RAShape : Type where
  | empty : RAShape
  | single : RAShape
  | concat (a b : RAShape) : RAShape
  | multiplier (n : Nat) (a : RAShape) : RAShape
  | wrapper (n : Nat) : RAShape
deriving DecidableEq

/-- a value of the recursive-array family: one Rust value of the variant type
described by the shape index.  Constructors carry exactly the fields the Rust
structs store (`PhantomData` fields are zero-sized and omitted); the native
arrays `[T; N]` and `[A; N]` are modelled as functions from `Fin n`. -/
inductive RecArray (T : Type) : RAShape → Type where
  | empty : RecArray T .empty
  | single (item : T) : RecArray T .single
  | concat {sa sb : RAShape} (a : RecArray T sa) (b : RecArray T sb) :
      RecArray T (.concat sa sb)
  | multiplier {sa : RAShape} (n : Nat) (multiplied : Fin n → RecArray T sa) :
      RecArray T (.multiplier n sa)
  | wrapper (n : Nat) (array : Fin n → T) : RecArray T (.wrapper n)

/-- the associated constant `LENGTH` of each variant type, exactly as declared
by the five `unsafe impl RecursiveArray<T> for ...` blocks in src/lib.rs:
`0`, `1`, `A::LENGTH + B::LENGTH`, `A::LENGTH * N`, and `N`. -/
def RAShape.LENGTH : RAShape → Nat
  | .empty => 0
  | .single => 1
  | .concat a b => a.LENGTH + b.LENGTH
  | .multiplier n a => a.LENGTH * n
  | .wrapper n => n

/-- the physical element sequence of a value, as laid out in memory by the
`repr` attributes of the five structs: the unit struct stores nothing, the
transparent single-item struct stores its one item, the `repr(C)` concatenation
stores field `a` immediately followed by field `b`, the transparent multiplier
stores its `N` inner arrays in index order, and the transparent wrapper stores
its native array in order. -/
def RecArray.memory {T : Type} : {s : RAShape} → RecArray T s → List T
  | _, .empty => []
  | _, .single x => [x]
  | _, .concat a b => a.memory ++ b.memory
  | _, .multiplier n vs => (List.ofFn fun i => (vs i).memory).flatten
  | _, .wrapper n arr => List.ofFn arr

/-- the size in bytes of each variant struct, given `size_of::<T>() = tsize`:
the unit struct is zero-sized, `repr(transparent)` structs have the size of
their single field (`T`, `[A; N]`, `[T; N]`), and the `repr(C)` concatenation
is the sum of its field sizes (all fields are themselves arrays of `T`, so the
`repr(C)` layout inserts no padding between or after them). -/
def RAShape.byte_size (tsize : Nat) : RAShape → Nat
  | .empty => 0
  | .single => tsize
  | .concat a b => a.byte_size tsize + b.byte_size tsize
  | .multiplier n a => a.byte_size tsize * n
  | .wrapper n => n * tsize

/-- `RecursiveArray::as_slice` (src/lib.rs line 91): builds a slice from the
value's base address with length `Self::LENGTH`
(`core::slice::from_raw_parts(self as *const Self as *const T, Self::LENGTH)`),
i.e. it reads the first `Self::LENGTH` elements of the value's storage. -/
def RecArray.as_slice {T : Type} {s : RAShape} (v : RecArray T s) : List T :=
  v.memory.take s.LENGTH

/-- `RecursiveArray::as_mut_slice` (src/lib.rs line 96): identical to
`as_slice` except for mutability of the returned view. -/
def RecArray.as_mut_slice {T : Type} {s : RAShape} (v : RecArray T s) : List T :=
  v.memory.take s.LENGTH

/-- `RecursiveArray::len` (src/lib.rs line 20): returns `Self::LENGTH`,
ignoring the receiver value. -/
def RecArray.len {T : Type} {s : RAShape} (_v : RecArray T s) : Nat :=
  s.LENGTH

/-- the result of reinterpreting a contiguous run of elements of `T` as a value
of shape `s`, modelling the raw pointer cast `&*slice.as_ptr().cast()` used by
`from_slice`/`from_mut_slice` and the transmute used by `from_array`: the value
whose fields are read off the element sequence left to right.  Out-of-range
reads (only reachable when the caller's length guard was bypassed) yield
`default`. -/
def RAShape.decode {T : Type} [Inhabited T] : (s : RAShape) → List T → RecArray T s
  | .empty, _ => .empty
  | .single, l => .single (l.headD default)
  | .concat a b, l => .concat (a.decode (l.take a.LENGTH)) (b.decode (l.drop a.LENGTH))
  | .multiplier n a, l =>
      .multiplier n fun i => a.decode ((l.drop (i.val * a.LENGTH)).take a.LENGTH)
  | .wrapper n, l => .wrapper n fun i => l.getD i.val default

/-- `runtime_checked_transmute` (src/lib.rs line 248): panics (modelled as
`none`) when the two types' sizes differ, otherwise reinterprets the argument
bit-for-bit as the target type (the reinterpreted result is passed in by the
caller, since the embedding works with element sequences rather than bytes). -/
def runtime_checked_transmute {β : Type} (sizeA sizeB : Nat) (reinterpreted : β) :
    Option β :=
  if sizeA ≠ sizeB then none else some reinterpreted

/-- `RecursiveArray::from_slice` (src/lib.rs line 63): panics (modelled as
`none`) when `slice.len() != Self::LENGTH`, otherwise casts the slice pointer
to a reference of `Self`. -/
def RAShape.from_slice {T : Type} [Inhabited T] (s : RAShape) (slice : List T) :
    Option (RecArray T s) :=
  if slice.length ≠ s.LENGTH then none else some (s.decode slice)

/-- `RecursiveArray::from_mut_slice` (src/lib.rs line 79): same check and same
cast as `from_slice`, through a mutable pointer. -/
def RAShape.from_mut_slice {T : Type} [Inhabited T] (s : RAShape) (slice : List T) :
    Option (RecArray T s) :=
  if slice.length ≠ s.LENGTH then none else some (s.decode slice)

/-- `RecursiveArray::from_array` (src/lib.rs line 30): panics (modelled as
`none`) when the array length `N` is not `Self::LENGTH`, otherwise transmutes
the array `[T; N]` (of byte size `N * tsize`) into `Self` via
`runtime_checked_transmute`.  The array `[T; N]` is modelled as a list with
`array.length = N`. -/
def RAShape.from_array {T : Type} [Inhabited T] (s : RAShape) (tsize : Nat)
    (array : List T) : Option (RecArray T s) :=
  if array.length ≠ s.LENGTH then none
  else runtime_checked_transmute (array.length * tsize) (s.byte_size tsize)
    (s.decode array)

/-- `RecursiveArray::to_array` (src/lib.rs line 47): panics (modelled as
`none`) when `N != Self::LENGTH`, otherwise transmutes `Self` (of byte size
`Self.byte_size tsize`) into `[T; N]` (byte size `N * tsize`), yielding the
first `N` elements of the value's storage. -/
def RecArray.to_array {T : Type} {s : RAShape} (v : RecArray T s) (tsize N : Nat) :
    Option (List T) :=
  if N ≠ s.LENGTH then none
  else runtime_checked_transmute (s.byte_size tsize) (N * tsize) (v.memory.take N)

/-- `EmptyRecursiveArray` (src/lib.rs line 135): the unit struct value, also
what the trait's `empty()` method and `EMPTY` constant return. -/
def EmptyRecursiveArray (T : Type) : RecArray T .empty :=
  .empty

/-- `RecursiveArraySingleItem::new` (src/lib.rs line 151). -/
def RecursiveArraySingleItem.new {T : Type} (item : T) : RecArray T .single :=
  .single item

/-- `RecursiveArrayConcatenation::new` (src/lib.rs line 171). -/
def RecursiveArrayConcatenation.new {T : Type} {sa sb : RAShape}
    (a : RecArray T sa) (b : RecArray T sb) : RecArray T (.concat sa sb) :=
  .concat a b

/-- `RecursiveArrayMultiplier::new` (src/lib.rs line 205). -/
def RecursiveArrayMultiplier.new {T : Type} {sa : RAShape} (n : Nat)
    (values : Fin n → RecArray T sa) : RecArray T (.multiplier n sa) :=
  .multiplier n values

/-- `RecursiveArrayArrayWrapper::new` (src/lib.rs line 188). -/
def RecursiveArrayArrayWrapper.new {T : Type} (n : Nat) (array : Fin n → T) :
    RecArray T (.wrapper n) :=
  .wrapper n array

/-- `RecursiveArray::push_back` (src/lib.rs line 101): concatenates `self` with
a new single-item leaf holding `item`. -/
def RecArray.push_back {T : Type} {s : RAShape} (v : RecArray T s) (item : T) :
    RecArray T (.concat s .single) :=
  RecursiveArrayConcatenation.new v (RecursiveArraySingleItem.new item)

/-- `RecursiveArray::push_front` (src/lib.rs line 117): concatenates a new
single-item leaf holding `item` with `self`. -/
def RecArray.push_front {T : Type} {s : RAShape} (v : RecArray T s) (item : T) :
    RecArray T (.concat .single s) :=
  RecursiveArrayConcatenation.new (RecursiveArraySingleItem.new item) v

/-- `RecursiveArray::append_back` (src/lib.rs line 109): concatenates `self`
with another recursive array. -/
def RecArray.append_back {T : Type} {s r : RAShape} (v : RecArray T s)
    (array : RecArray T r) : RecArray T (.concat s r) :=
  RecursiveArrayConcatenation.new v array

/-- `RecursiveArray::append_front` (src/lib.rs line 125): concatenates another
recursive array with `self`. -/
def RecArray.append_front {T : Type} {s r : RAShape} (v : RecArray T s)
    (array : RecArray T r) : RecArray T (.concat r s) :=
  RecursiveArrayConcatenation.new array v

/-- the variadic `recursive_array!` construction (src/lib.rs line 220) builds,
for `k+1` argument values, `Concatenation(SingleItem(v0), recursive_array![v1, ..., vk])`,
for one value `SingleItem(v0)`, and for no values `EmptyRecursiveArray`; this
shape function gives the resulting type as a function of the argument count. -/
def recursiveArrayShape : Nat → RAShape
  | 0 => .empty
  | 1 => .single
  | n + 2 => .concat .single (recursiveArrayShape (n + 1))

/-- the value built by the `recursive_array!` construction (src/lib.rs line
220) from the given argument values, in order. -/
def recursiveArrayOf {T : Type} : (l : List T) → RecArray T (recursiveArrayShape l.length)
  | [] => .empty
  | [x] => .single x
  | x :: y :: rest =>
      RecursiveArrayConcatenation.new (RecursiveArraySingleItem.new x)
        (recursiveArrayOf (y :: rest))

/-- the physical element count of every value equals its type's `LENGTH`
constant: the layout invariant of the `RecursiveArray` capability. -/
theorem RecArray.memory_length {T : Type} {s : RAShape} (v : RecArray T s) :
    v.memory.length = s.LENGTH := by
  induction v with
  | empty => rfl
  | single x => rfl
  | concat a b iha ihb =>
      simp [RecArray.memory, RAShape.LENGTH, iha, ihb]
  | multiplier n vs ih =>
      simp only [RecArray.memory, RAShape.LENGTH]
      rw [List.length_flatten, List.map_ofFn]
      simp only [Function.comp_def, ih]
      simp [List.ofFn_const, List.sum_replicate, Nat.mul_comm]
  | wrapper n arr =>
      simp [RecArray.memory, RAShape.LENGTH]

/-- `as_slice` returns exactly the physical element sequence. -/
theorem RecArray.as_slice_eq_memory {T : Type} {s : RAShape} (v : RecArray T s) :
    v.as_slice = v.memory := by
  rw [RecArray.as_slice, ← v.memory_length, List.take_length]

/-- splitting a list of length `L * n` into `n` consecutive chunks of length `L`
and flattening them back yields the original list. -/
theorem flatten_chunks {T : Type} (L : Nat) :
    ∀ (n : Nat) (l : List T), l.length = L * n →
      (List.ofFn fun i : Fin n => ((l.drop (i.val * L)).take L)).flatten = l := by
  intro n
  induction n with
  | zero =>
      intro l hl
      simp at hl
      simp [hl]
  | succ n ih =>
      intro l hl
      rw [List.ofFn_succ]
      simp only [Fin.val_zero, Nat.zero_mul, List.drop_zero, Fin.val_succ]
      have hdrop : ∀ i : Fin n, l.drop ((i.val + 1) * L) = (l.drop L).drop (i.val * L) := by
        intro i
        rw [List.drop_drop]
        congr 1
        ring
      have hrest : (List.ofFn fun i : Fin n => ((l.drop ((i.val + 1) * L)).take L)).flatten
          = l.drop L := by
        have hlen : (l.drop L).length = L * n := by
          rw [List.length_drop, hl]
          ring_nf
          omega
        calc (List.ofFn fun i : Fin n => ((l.drop ((i.val + 1) * L)).take L)).flatten
            = (List.ofFn fun i : Fin n => (((l.drop L).drop (i.val * L)).take L)).flatten := by
              have hfun : (fun i : Fin n => ((l.drop ((i.val + 1) * L)).take L))
                  = fun i : Fin n => (((l.drop L).drop (i.val * L)).take L) := by
                funext i
                rw [hdrop i]
              rw [hfun]
          _ = l.drop L := ih (l.drop L) hlen
      rw [List.flatten_cons, hrest, List.take_append_drop]

/-- reinterpreting an element sequence of exactly the right length as a value
of shape `s` reproduces that sequence as the value's storage: the pointer casts
in `from_slice`/`from_mut_slice`/`from_array` lose no data. -/
theorem RAShape.decode_memory {T : Type} [Inhabited T] (s : RAShape) :
    ∀ l : List T, l.length = s.LENGTH → (s.decode l).memory = l := by
  induction s with
  | empty =>
      intro l hl
      simp [RAShape.LENGTH] at hl
      simp [RAShape.decode, RecArray.memory, hl]
  | single =>
      intro l hl
      simp [RAShape.LENGTH] at hl
      obtain ⟨x, hx⟩ := List.length_eq_one.mp hl
      subst hx
      simp [RAShape.decode, RecArray.memory]
  | concat a b iha ihb =>
      intro l hl
      simp only [RAShape.LENGTH] at hl
      have hta : (l.take a.LENGTH).length = a.LENGTH := by
        rw [List.length_take]
        omega
      have hdb : (l.drop a.LENGTH).length = b.LENGTH := by
        rw [List.length_drop]
        omega
      simp only [RAShape.decode, RecArray.memory]
      rw [iha _ hta, ihb _ hdb, List.take_append_drop]
  | multiplier n a ihA =>
      intro l hl
      simp only [RAShape.LENGTH] at hl
      simp only [RAShape.decode, RecArray.memory]
      have hchunk : ∀ i : Fin n,
          ((l.drop (i.val * a.LENGTH)).take a.LENGTH).length = a.LENGTH := by
        intro i
        have h1 : a.LENGTH * (i.val + 1) ≤ a.LENGTH * n :=
          Nat.mul_le_mul_left _ i.isLt
        have h2 : a.LENGTH + i.val * a.LENGTH ≤ a.LENGTH * n := by
          calc a.LENGTH + i.val * a.LENGTH = a.LENGTH * (i.val + 1) := by ring
            _ ≤ a.LENGTH * n := h1
        rw [List.length_take, List.length_drop, hl]
        omega
      have hfun : (fun i : Fin n =>
            (a.decode ((l.drop (i.val * a.LENGTH)).take a.LENGTH)).memory)
          = fun i : Fin n => ((l.drop (i.val * a.LENGTH)).take a.LENGTH) := by
        funext i
        exact ihA _ (hchunk i)
      rw [hfun]
      exact flatten_chunks a.LENGTH n l hl
  | wrapper n =>
      intro l hl
      simp only [RAShape.LENGTH] at hl
      simp only [RAShape.decode, RecArray.memory]
      apply List.ext_getElem
      · simp [hl]
      · intro i h1 h2
        rw [List.getElem_ofFn]
        exact List.getD_eq_getElem l default h2

/-- the capability layout invariant at the byte level: every variant struct's
size equals its `LENGTH` times the element size. -/
theorem RAShape.byte_size_eq (s : RAShape) (tsize : Nat) :
    s.byte_size tsize = s.LENGTH * tsize := by
  induction s with
  | empty => simp [RAShape.byte_size, RAShape.LENGTH]
  | single => simp [RAShape.byte_size, RAShape.LENGTH]
  | concat a b iha ihb =>
      simp only [RAShape.byte_size, RAShape.LENGTH, iha, ihb]
      ring
  | multiplier n a ih =>
      simp only [RAShape.byte_size, RAShape.LENGTH, ih]
      ring
  | wrapper n =>
      simp only [RAShape.byte_size, RAShape.LENGTH]

/-- C1: concatenation preserves element order: for every element type `T` and
all conforming operand values `a`, `b`, the slice view of
`RecursiveArrayConcatenation::new(a, b)` is `a.as_slice()` followed by
`b.as_slice()`, and the concatenation type's `LENGTH` constant is
`A::LENGTH + B::LENGTH`. -/
theorem c1_concatenation_preserves_order {T : Type} {sa sb : RAShape}
    (a : RecArray T sa) (b : RecArray T sb) :
    (RecursiveArrayConcatenation.new a b).as_slice = a.as_slice ++ b.as_slice
      ∧ (RAShape.concat sa sb).LENGTH = sa.LENGTH + sb.LENGTH := by
  refine ⟨?_, rfl⟩
  rw [RecArray.as_slice_eq_memory, RecArray.as_slice_eq_memory,
    RecArray.as_slice_eq_memory]
  simp only [RecursiveArrayConcatenation.new]
  rfl

/-- C2: for every value of every conforming variant type, `as_slice()` has
length equal to the type's `LENGTH` constant, which in turn equals the number
of elements physically stored; the five variants declare `LENGTH` values
`0`, `1`, `A::LENGTH + B::LENGTH`, `A::LENGTH * N`, and `N` respectively. -/
theorem c2_as_slice_length_eq_LENGTH {T : Type} {s : RAShape} (v : RecArray T s) :
    v.as_slice.length = s.LENGTH
      ∧ v.memory.length = s.LENGTH
      ∧ RAShape.empty.LENGTH = 0
      ∧ RAShape.single.LENGTH = 1
      ∧ (∀ sa sb : RAShape, (RAShape.concat sa sb).LENGTH = sa.LENGTH + sb.LENGTH)
      ∧ (∀ (n : Nat) (sa : RAShape), (RAShape.multiplier n sa).LENGTH = sa.LENGTH * n)
      ∧ (∀ n : Nat, (RAShape.wrapper n).LENGTH = n) := by
  refine ⟨?_, v.memory_length, rfl, rfl, fun _ _ => rfl, fun _ _ => rfl, fun _ => rfl⟩
  rw [RecArray.as_slice_eq_memory, v.memory_length]

/-- C5: push and append build correctly: `push_back`/`push_front` yield a value
whose slice view appends or prepends the single new element, they are exactly a
concatenation with a fresh single-item leaf (one element longer at the type
level), and `append_back`/`append_front` do the analogous thing for a whole
conforming operand. -/
theorem c5_push_append_build_correctly {T : Type} {s r : RAShape}
    (v : RecArray T s) (w : RecArray T r) (x : T) :
    (v.push_back x).as_slice = v.as_slice ++ [x]
      ∧ (v.push_front x).as_slice = [x] ++ v.as_slice
      ∧ (v.append_back w).as_slice = v.as_slice ++ w.as_slice
      ∧ (v.append_front w).as_slice = w.as_slice ++ v.as_slice
      ∧ v.push_back x = RecursiveArrayConcatenation.new v (RecursiveArraySingleItem.new x)
      ∧ v.push_front x = RecursiveArrayConcatenation.new (RecursiveArraySingleItem.new x) v
      ∧ (RAShape.concat s .single).LENGTH = s.LENGTH + 1
      ∧ (RAShape.concat .single s).LENGTH = 1 + s.LENGTH := by
  refine ⟨?_, ?_, ?_, ?_, rfl, rfl, rfl, rfl⟩ <;>
    simp [RecArray.push_back, RecArray.push_front, RecArray.append_back,
      RecArray.append_front, RecursiveArrayConcatenation.new,
      RecursiveArraySingleItem.new, RecArray.as_slice_eq_memory, RecArray.memory]

/-- C6: multiplier repetition: the slice view of
`RecursiveArrayMultiplier::new([a_0, ..., a_{n-1}])` is the concatenation of
the operand slices in index order; with `n` copies of the same value it is that
value's slice repeated `n` times; and the multiplier type's `LENGTH` constant
is `A::LENGTH * N`. -/
theorem c6_multiplier_repetition {T : Type} {sa : RAShape} (n : Nat)
    (vs : Fin n → RecArray T sa) (a : RecArray T sa) :
    (RecursiveArrayMultiplier.new n vs).as_slice
        = (List.ofFn fun i => (vs i).as_slice).flatten
      ∧ (RecursiveArrayMultiplier.new n fun _ => a).as_slice
        = (List.replicate n a.as_slice).flatten
      ∧ (RAShape.multiplier n sa).LENGTH = sa.LENGTH * n := by
  have key : ∀ ws : Fin n → RecArray T sa,
      (RecursiveArrayMultiplier.new n ws).as_slice
        = (List.ofFn fun i => (ws i).as_slice).flatten := by
    intro ws
    rw [RecArray.as_slice_eq_memory]
    simp only [RecursiveArrayMultiplier.new, RecArray.memory]
    have hfun : (fun i : Fin n => (ws i).memory) = fun i : Fin n => (ws i).as_slice :=
      funext fun i => (RecArray.as_slice_eq_memory (ws i)).symm
    rw [hfun]
  refine ⟨key vs, ?_, rfl⟩
  rw [key fun _ => a]
  congr 1
  exact List.ofFn_const n a.as_slice

/-- C9: the leaf variants expose their contents faithfully: the empty array's
slice view is `[]`, a single-item array's slice view is `[x]`, the fixed-array
wrapper preserves the wrapped native array, and wrapping `[1, 2]` then
concatenating with a single-item `3` yields the logical sequence `[1, 2, 3]`. -/
theorem c9_leaf_variants_faithful {T : Type} (x : T) (n : Nat) (arr : Fin n → T) :
    (EmptyRecursiveArray T).as_slice = []
      ∧ (RecursiveArraySingleItem.new x).as_slice = [x]
      ∧ (RecursiveArrayArrayWrapper.new n arr).as_slice = List.ofFn arr
      ∧ (RecursiveArrayConcatenation.new (RecursiveArrayArrayWrapper.new 2 ![1, 2])
          (RecursiveArraySingleItem.new 3)).as_slice = [1, 2, 3] := by
  refine ⟨rfl, rfl, ?_, by decide⟩
  rw [RecArray.as_slice_eq_memory]
  simp [RecursiveArrayArrayWrapper.new, RecArray.memory]

/-- C10: the trait's `len()` method returns `Self::LENGTH` for every value,
independent of the value itself, and consequently `v.len()` equals
`v.as_slice().len()` for every value `v`. -/
theorem c10_len_eq_LENGTH {T : Type} {s : RAShape} (v : RecArray T s) :
    v.len = s.LENGTH ∧ v.len = v.as_slice.length := by
  refine ⟨rfl, ?_⟩
  rw [RecArray.as_slice_eq_memory, v.memory_length]
  rfl

/-- `as_mut_slice` also returns exactly the physical element sequence. -/
theorem RecArray.as_mut_slice_eq_memory {T : Type} {s : RAShape} (v : RecArray T s) :
    v.as_mut_slice = v.memory := by
  rw [RecArray.as_mut_slice, ← v.memory_length, List.take_length]

/-- C3: length-mismatch detection: `from_slice`, `from_mut_slice` fail exactly
when the slice length differs from `Self::LENGTH`, and `from_array`/`to_array`
fail exactly when `N` differs from `Self::LENGTH` (the internal size check
never fires on its own); when the lengths agree each conversion succeeds and
returns a value carrying exactly the input elements, with nothing truncated and
nothing read out of bounds. -/
theorem c3_length_mismatch_detection {T : Type} [Inhabited T] {s : RAShape}
    (l : List T) (tsize N : Nat) (v : RecArray T s) :
    (s.from_slice l = none ↔ l.length ≠ s.LENGTH)
      ∧ (s.from_mut_slice l = none ↔ l.length ≠ s.LENGTH)
      ∧ (s.from_array tsize l = none ↔ l.length ≠ s.LENGTH)
      ∧ (v.to_array tsize N = none ↔ N ≠ s.LENGTH)
      ∧ (l.length = s.LENGTH →
          s.from_slice l = some (s.decode l)
            ∧ s.from_mut_slice l = some (s.decode l)
            ∧ s.from_array tsize l = some (s.decode l)
            ∧ (s.decode (T := T) l).as_slice = l
            ∧ (s.decode (T := T) l).as_mut_slice = l)
      ∧ (N = s.LENGTH → v.to_array tsize N = some v.memory ∧ v.memory.length = N) := by
  have hbs : s.byte_size tsize = s.LENGTH * tsize := RAShape.byte_size_eq s tsize
  refine ⟨?_, ?_, ?_, ?_, ?_, ?_⟩
  · by_cases h : l.length = s.LENGTH <;> simp [RAShape.from_slice, h]
  · by_cases h : l.length = s.LENGTH <;> simp [RAShape.from_mut_slice, h]
  · by_cases h : l.length = s.LENGTH <;>
      simp [RAShape.from_array, runtime_checked_transmute, h, hbs]
  · by_cases h : N = s.LENGTH <;>
      simp [RecArray.to_array, runtime_checked_transmute, h, hbs]
  · intro h
    have hdec := s.decode_memory l h
    refine ⟨?_, ?_, ?_, ?_, ?_⟩
    · simp [RAShape.from_slice, h]
    · simp [RAShape.from_mut_slice, h]
    · simp [RAShape.from_array, runtime_checked_transmute, h, hbs]
    · rw [RecArray.as_slice_eq_memory, hdec]
    · rw [RecArray.as_mut_slice_eq_memory, hdec]
  · intro h
    subst h
    constructor
    · simp [RecArray.to_array, runtime_checked_transmute, hbs, v.memory_length]
    · exact v.memory_length

/-- a concrete application of the length-mismatch theorem. -/
theorem c3_length_mismatch_detection_witness :
    RAShape.single.from_slice ([] : List Nat) = none
      ↔ ([] : List Nat).length ≠ RAShape.single.LENGTH :=
  (c3_length_mismatch_detection ([] : List Nat) 4 1 (RecArray.single 0)).1

/-- C4: round-trip: for every value `v` of a conforming type with
`LENGTH = N`, converting to a native array with `to_array` and back with
`from_array` succeeds and yields a value whose slice view equals the original
element sequence; likewise `from_slice(v.as_slice())` yields a value whose
slice view equals `v.as_slice()`. -/
theorem c4_roundtrip {T : Type} [Inhabited T] {s : RAShape} (v : RecArray T s)
    (tsize N : Nat) (h : N = s.LENGTH) :
    (∃ arr, v.to_array tsize N = some arr
        ∧ ∃ w, s.from_array tsize arr = some w ∧ RecArray.as_slice w = v.as_slice)
      ∧ ∃ w, s.from_slice v.as_slice = some w
          ∧ RecArray.as_slice w = v.as_slice := by
  subst h
  have hbs := RAShape.byte_size_eq s tsize
  have hmem := v.memory_length
  have hslice := v.as_slice_eq_memory
  constructor
  · refine ⟨v.memory, ?_, s.decode v.memory, ?_, ?_⟩
    · simp [RecArray.to_array, runtime_checked_transmute, hbs, hmem]
    · simp [RAShape.from_array, runtime_checked_transmute, hbs, hmem]
    · rw [RecArray.as_slice_eq_memory, s.decode_memory _ hmem, hslice]
  · refine ⟨s.decode v.as_slice, ?_, ?_⟩
    · have hlen : v.as_slice.length = s.LENGTH := by rw [hslice, hmem]
      simp [RAShape.from_slice, hlen]
    · rw [RecArray.as_slice_eq_memory, s.decode_memory _ (by rw [hslice, hmem]), hslice]

/-- a concrete application of the round-trip theorem. -/
theorem c4_roundtrip_witness :
    (2 = (RAShape.wrapper 2).LENGTH)
      ∧ ((∃ arr, (RecArray.wrapper 2 ![7, 8]).to_array 4 2 = some arr
            ∧ ∃ w, (RAShape.wrapper 2).from_array 4 arr = some w
                ∧ RecArray.as_slice w = (RecArray.wrapper (T := Nat) 2 ![7, 8]).as_slice)
          ∧ ∃ w, (RAShape.wrapper 2).from_slice (RecArray.wrapper (T := Nat) 2 ![7, 8]).as_slice = some w
              ∧ RecArray.as_slice w = (RecArray.wrapper (T := Nat) 2 ![7, 8]).as_slice) :=
  ⟨by decide, c4_roundtrip (RecArray.wrapper 2 ![7, 8]) 4 2 (by decide)⟩

/-- the variadic construction yields exactly its argument values, in order. -/
theorem recursiveArrayOf_as_slice {T : Type} :
    ∀ l : List T, (recursiveArrayOf l).as_slice = l := by
  intro l
  induction l with
  | nil => rfl
  | cons x xs ih =>
      cases xs with
      | nil => rfl
      | cons y rest =>
          rw [RecArray.as_slice_eq_memory] at ih ⊢
          simp [recursiveArrayOf, RecursiveArrayConcatenation.new,
            RecursiveArraySingleItem.new, RecArray.memory, ih]

/-- C7: the variadic constructor preserves argument order: for any argument
values it produces a value whose slice view lists them in order (the empty
invocation yields the empty array); in particular building from `[10, 20, 30]`
yields slice `[10, 20, 30]`, pushing `40` to the back yields
`[10, 20, 30, 40]`, `to_array` at `N = 4` yields `some [10, 20, 30, 40]`, and
`to_array` at `N = 5` fails with a length mismatch. -/
theorem c7_variadic_preserves_order {T : Type} (l : List T) (tsize : Nat) :
    (recursiveArrayOf l).as_slice = l
      ∧ (recursiveArrayOf ([] : List Nat)).as_slice = []
      ∧ (recursiveArrayOf ([10, 20, 30] : List Nat)).as_slice = [10, 20, 30]
      ∧ ((recursiveArrayOf ([10, 20, 30] : List Nat)).push_back 40).as_slice
        = [10, 20, 30, 40]
      ∧ ((recursiveArrayOf ([10, 20, 30] : List Nat)).push_back 40).to_array tsize 4
        = some [10, 20, 30, 40]
      ∧ ((recursiveArrayOf ([10, 20, 30] : List Nat)).push_back 40).to_array tsize 5
        = none := by
  refine ⟨recursiveArrayOf_as_slice l, rfl, by decide, by decide, ?_, ?_⟩
  · rw [RecArray.to_array, if_neg (by decide), runtime_checked_transmute,
      RAShape.byte_size_eq]
    have hL : (RAShape.concat (recursiveArrayShape ([10, 20, 30] : List Nat).length)
        RAShape.single).LENGTH = 4 := by decide
    rw [hL, if_neg fun hc => hc rfl]
    decide
  · rw [RecArray.to_array, if_pos (by decide)]

/-- C8: the defensive size check: `runtime_checked_transmute` fails exactly
when the two sizes disagree; for every variant shape the capability invariant
`byte_size(Self) = LENGTH * byte_size(T)` holds, so once the length check has
passed the size-mismatch branch is unreachable and `from_array`/`to_array`
succeed. -/
theorem c8_defensive_size_check {T : Type} [Inhabited T] {s : RAShape} {β : Type}
    (tsize sizeA sizeB : Nat) (b : β) (arr : List T) (v : RecArray T s) (N : Nat)
    (h : arr.length = s.LENGTH) (hN : N = s.LENGTH) :
    (runtime_checked_transmute sizeA sizeB b = none ↔ sizeA ≠ sizeB)
      ∧ s.byte_size tsize = s.LENGTH * tsize
      ∧ arr.length * tsize = s.byte_size tsize
      ∧ (∃ w, s.from_array tsize arr = some w)
      ∧ (∃ out, v.to_array tsize N = some out) := by
  have hbs := RAShape.byte_size_eq s tsize
  refine ⟨?_, hbs, ?_, ?_, ?_⟩
  · by_cases hs : sizeA = sizeB <;> simp [runtime_checked_transmute, hs]
  · rw [h, hbs]
  · exact ⟨s.decode arr, by simp [RAShape.from_array, runtime_checked_transmute, h, hbs]⟩
  · subst hN
    exact ⟨v.memory.take s.LENGTH,
      by simp [RecArray.to_array, runtime_checked_transmute, hbs]⟩

/-- a concrete application of the defensive size-check theorem. -/
theorem c8_defensive_size_check_witness :
    ([9] : List Nat).length = RAShape.single.LENGTH
      ∧ (1 : Nat) = RAShape.single.LENGTH
      ∧ ((runtime_checked_transmute 3 3 (0 : Nat) = none ↔ (3 : Nat) ≠ 3)
          ∧ RAShape.single.byte_size 8 = RAShape.single.LENGTH * 8
          ∧ ([9] : List Nat).length * 8 = RAShape.single.byte_size 8
          ∧ (∃ w, RAShape.single.from_array 8 [9] = some w)
          ∧ ∃ out, (RecArray.single 9).to_array 8 1 = some out) :=
  ⟨by decide, by decide,
    c8_defensive_size_check 8 3 3 0 [9] (RecArray.single 9) 1 (by decide) (by decide)⟩
